import Mathlib

/-!
Shallow embedding of `src/main.py` (fuzzy name matcher) and verification of the
frozen claims about it.

Modelling conventions:
* Python values flowing through the datasets are modelled by `PyVal`
  (strings, ints, `None`/NaN, and builtin function objects — the last is needed
  because line 101 of the source accidentally references the Python builtin
  `id`).  Floats returned by the scorer are modelled as exact rationals.
* A pandas `DataFrame` is `Df` (a column-name list plus positional rows); a row
  viewed as a `Series` is `Srow`.  Column access on a missing column is a
  `KeyError`, matching pandas.
* Fallible Python code is embedded in `Except PyErr`; the bare
  `except Exception` blocks of the source become explicit `match` on the
  `Except` value.
* Regexes are translated operation by operation into executable list/string
  functions; each function's doc comment names the source line it embeds.
  Python `str.lower` is modelled as ASCII lowercasing: the characters on which
  full Unicode case mapping differs are removed by the surrounding
  character-class filters in all pipelines, so the final results agree on the
  inputs the program handles.
-/

/-- Python-level errors that the embedded fragments can raise. -/
inductive PyErr where
  | keyError
  | typeError
  | valueError
  | attributeError
deriving DecidableEq, Repr

/-- A Python value as it appears in the matcher's dataframes: a string, an
integer, `None`/NaN, or a builtin function object (such as the builtin `id`
referenced on line 101 of the source). -/
inductive PyVal where
  | s (v : String)
  | i (v : Int)
  | b (name : String)
  | none
deriving DecidableEq, Repr

/-- Python `str(x)`. -/
def pyStr : PyVal → String
  | .s v => v
  | .i v => toString v
  | .b n => "<built-in function " ++ n ++ ">"
  | .none => "None"

/-- Python `len(x)` on a scalar value: defined for strings, a `TypeError`
otherwise (in particular on builtin function objects such as `id`). -/
def pyLen : PyVal → Except PyErr Nat
  | .s v => .ok v.length
  | _ => .error .typeError

/-- Coerce a value that the code requires to be a string (e.g. the query key
handed to `process.extractOne`); a non-string raises. -/
def pyAsStr : PyVal → Except PyErr String
  | .s v => .ok v
  | _ => .error .typeError

/-- Whitespace for Python `str.strip()` / `str.split()`. -/
def isPySpace (c : Char) : Bool :=
  c == ' ' || c == '\t' || c == '\n' || c == '\r' || c == '\x0b' || c == '\x0c'

/-- Python `str.strip()` on a character list. -/
def trimChars (l : List Char) : List Char :=
  ((l.dropWhile isPySpace).reverse.dropWhile isPySpace).reverse

/-- A lowercase ASCII letter or digit: the characters a canonical company key
is made of. -/
def isKeyChar (c : Char) : Bool :=
  (97 ≤ c.toNat && c.toNat ≤ 122) || (48 ≤ c.toNat && c.toNat ≤ 57)

/-- Character class `[a-z0-9 ]` of the company-name filter (line 23); regex
character classes are code-point ranges, written here on `Char.toNat`. -/
def isCompanyChar (c : Char) : Bool :=
  isKeyChar c || c == ' '

/-- Character class `[A-Za-z0-9 ]` of the person-name filter (line 45). -/
def isPersonChar (c : Char) : Bool :=
  isKeyChar c || (65 ≤ c.toNat && c.toNat ≤ 90) || c == ' '

/-- Python `str.lower()` per character, on the ASCII range (`A`-`Z` maps to
`a`-`z`); see the module comment for the Unicode caveat. -/
def pyLower (c : Char) : Char :=
  if 65 ≤ c.toNat ∧ c.toNat ≤ 90 then Char.ofNat (c.toNat + 32) else c

/-- Line 25, `re.sub(r' (q[1-4].*?|old|adr)$', '', x)`: scanning left to
right, at the first space followed by `q` and a digit 1-4 the rest of the
string is deleted (the lazy `.*?` is forced to the anchor `$`); otherwise a
space whose remainder is exactly `old` or `adr` deletes that trailing token.
The inputs have already been filtered to `[a-z0-9 ]`, so `.` never meets a
newline. -/
def qDigitStart : List Char → Bool
  | 'q' :: d :: _ => d == '1' || d == '2' || d == '3' || d == '4'
  | _ => false

def stripTrailArtifact : List Char → List Char
  | [] => []
  | c :: rest =>
    if c = ' ' && (qDigitStart rest || rest = ['o', 'l', 'd'] || rest = ['a', 'd', 'r'])
    then []
    else c :: stripTrailArtifact rest

/-- Drop a literal suffix (used for the anchored alternations below). -/
def dropSuffixIf (sfx : List Char) (x : List Char) : Option (List Char) :=
  if sfx.isSuffixOf x then some (x.take (x.length - sfx.length)) else Option.none

/-- Line 26, `re.sub(r' (cl ?a|cl ?b|redh)$', '', x)`: the five concrete
suffixes are mutually exclusive, so a simple suffix test suffices. -/
def stripShareClass (x : List Char) : List Char :=
  match dropSuffixIf " cl a".toList x with
  | some y => y
  | Option.none =>
  match dropSuffixIf " cl b".toList x with
  | some y => y
  | Option.none =>
  match dropSuffixIf " cla".toList x with
  | some y => y
  | Option.none =>
  match dropSuffixIf " clb".toList x with
  | some y => y
  | Option.none =>
  match dropSuffixIf " redh".toList x with
  | some y => y
  | Option.none => x

/-- Line 27, `re.sub(r'-old$', '', x)`. -/
def stripHyphenOld (x : List Char) : List Char :=
  match dropSuffixIf "-old".toList x with
  | some y => y
  | Option.none => x

/-- The geographies the program actually selects (lines 15-18; `match` only
ever passes the literals `'us'` and `'int'`). -/
inductive Geography where
  | us
  | int
deriving DecidableEq, Repr

/-- Legal-form alternation of line 16 (`geography == 'us'`), in source order. -/
def legalFormsUS : List String :=
  ["public limited company", "public limited", "limited", "unlimited",
   "partnership", "incorporation", "incorporated", "corporation", "plc",
   "pbc", "ltd", "inc", "corp", "llc", "lp", "co", "company", "companies",
   "hldgs", "holdings", "holding"]

/-- Legal-form alternation of line 18 (`geography == 'int'`), in source order. -/
def legalFormsInt : List String :=
  legalFormsUS ++
  ["ab", "ag", "as", "asa", "berhad", "bhd", "bv", "cva", "esp", "jsc",
   "jscb", "kgaa", "kpsc", "ksc", "kscp", "nv", "oyj", "pcl", "pt", "publ",
   "spa", "sae", "sa", "saa", "saog", "se", "spv", "tbk"]

def legalForms : Geography → List String
  | .us => legalFormsUS
  | .int => legalFormsInt

/-- The regex `' (f1|f2|...)$'` matches at the leftmost position, i.e. it
removes the longest suffix of the form `" " ++ f`; this computes that suffix
(including its leading space) if one exists. -/
def legalSuffixMatch (forms : List String) (x : List Char) : Option (List Char) :=
  (forms.filterMap (fun f =>
      let sfx := ' ' :: f.toList
      if sfx.isSuffixOf x then some sfx else Option.none)).foldl
    (fun acc s =>
      match acc with
      | Option.none => some s
      | some t => if s.length > t.length then some s else some t)
    Option.none

/-- Whether the legal-form regex still matches (the `while` condition of
line 29). -/
def hasLegalSuffix (forms : List String) (x : List Char) : Bool :=
  (legalSuffixMatch forms x).isSome

/-- Lines 29-30, fuel-indexed: `while legal_forms.search(x): x =
re.sub(legal_forms, '', x).strip()`.  Each iteration strictly shortens the
string (the removed suffix is nonempty and `strip` never lengthens), so fuel
`x.length + 1` is provably sufficient — see `stripLegalFormsFuel_fix`. -/
def stripLegalFormsFuel (forms : List String) : Nat → List Char → List Char
  | 0, x => x
  | n + 1, x =>
    match legalSuffixMatch forms x with
    | Option.none => x
    | some sfx => stripLegalFormsFuel forms n (trimChars (x.take (x.length - sfx.length)))

/-- Lines 29-30 of the source: iteratively remove legal forms from the end of
the string. -/
def stripLegalForms (forms : List String) (x : List Char) : List Char :=
  stripLegalFormsFuel forms (x.length + 1) x

/-- Lines 32-35: strip a single leading `the ` (US) or `the `/`pt ` (Int). -/
def stripLeadingArticle (g : Geography) (x : List Char) : List Char :=
  if "the ".toList.isPrefixOf x then x.drop 4
  else
    match g with
    | .us => x
    | .int => if "pt ".toList.isPrefixOf x then x.drop 3 else x

/-- Line 36, `re.sub(r' and ', ' ', x)`: each non-overlapping occurrence of
`" and "` becomes a single space, scanning resuming after the replaced text
(standard `re.sub` semantics). -/
def replaceAnd : List Char → List Char
  | ' ' :: 'a' :: 'n' :: 'd' :: ' ' :: rest => ' ' :: replaceAnd rest
  | c :: rest => c :: replaceAnd rest
  | [] => []

/-- Lines 12-39, `normalize_company_names` applied to the string form of the
input; the pipeline stages appear in source order. -/
def companyCore (g : Geography) (s : String) : String :=
  String.mk
    ((replaceAnd
      (stripLeadingArticle g
        (stripLegalForms (legalForms g)
          (stripHyphenOld
            (stripShareClass
              (stripTrailArtifact
                (List.filter isCompanyChar
                  (trimChars (s.toList.map pyLower))))))))).filter (fun c => c != ' '))

/-- `normalize_company_names` (lines 12-39): the first operation on the input
is `str(x)`, so any value is coerced and the function is total. -/
def normalize_company_names (g : Geography) (v : PyVal) : String :=
  companyCore g (pyStr v)

/-- Title alternation of line 48, in source order (note the duplicated `Hon`,
kept as in the source). -/
def titleTokens : List String :=
  ["Economics", "PharmD", "CISA", "MPPM", "Hons", "Hon", "BBA", "MBA", "JD",
   "MIM", "PhD", "Hon", "FCPA", "CFA", "CPA", "FCA", "CMA", "MAI", "BSc",
   "BSC", "MSc", "MSC", "ESQ", "MS", "BA", "CA", "BE", "AM", "PE", "AO", "MD"]

/-- First alternative of line 48's alternation that matches at the current
position (regex alternation tries the branches in source order). -/
def findTitle (rest : List Char) : Option (List Char) :=
  (titleTokens.map String.toList).find? (fun t => t.isPrefixOf rest)

/-- Lines 47-50, fuel-indexed: `re.sub(r' (Economics|...|MD)', '', x)`.  The
pattern is a space followed by a title, with no trailing boundary; matching is
a single left-to-right pass that resumes after each removed match.  Fuel
`l.length` is exact: every step consumes at least one character. -/
def stripTitlesFuel : Nat → List Char → List Char
  | 0, l => l
  | _ + 1, [] => []
  | n + 1, c :: rest =>
    if c = ' ' then
      match findTitle rest with
      | some t => stripTitlesFuel n (rest.drop t.length)
      | Option.none => ' ' :: stripTitlesFuel n rest
    else c :: stripTitlesFuel n rest

/-- Lines 47-50 of the source: remove titles (a space followed by a title
token, wherever it occurs). -/
def stripTitles (l : List Char) : List Char :=
  stripTitlesFuel l.length l

/-- Python `str.split()` (no argument): split on runs of whitespace,
discarding empty fragments. -/
def splitWsAux : List Char → List Char → List (List Char)
  | [], cur => if cur = [] then [] else [cur.reverse]
  | c :: rest, cur =>
    if isPySpace c then
      if cur = [] then splitWsAux rest [] else cur.reverse :: splitWsAux rest []
    else splitWsAux rest (c :: cur)

def splitWs (l : List Char) : List (List Char) :=
  splitWsAux l []

/-- Lexicographic comparison by code point, as Python compares strings. -/
def lexLe : List Char → List Char → Bool
  | [], _ => true
  | _ :: _, [] => false
  | a :: as, b :: bs => if a < b then true else if b < a then false else lexLe as bs

def insertTok (a : List Char) : List (List Char) → List (List Char)
  | [] => [a]
  | b :: bs => if lexLe a b then a :: b :: bs else b :: insertTok a bs

/-- Line 55, `x.sort()`: a stable sort under total lexicographic order; since
equal tokens are identical strings, any correct sort produces the same list,
so a stable insertion sort is an exact model of Python's sort here. -/
def sortToks : List (List Char) → List (List Char)
  | [] => []
  | a :: as => insertTok a (sortToks as)

/-- Lines 42-57, `normalize_person_names` on a string input, stages in source
order: character filter, title strip, `str`/lower/strip (the `str` is an
identity here, the argument is already a string), split, sort, join. -/
def personCore (s : String) : String :=
  String.mk
    (sortToks (splitWs
      (trimChars ((stripTitles (s.toList.filter isPersonChar)).map pyLower)))).flatten

/-- `normalize_person_names` (lines 42-57): the first operation is
`re.sub(r'[^A-Za-z0-9 ]', '', x)` on the raw input, which raises `TypeError`
when `x` is not a string — the `str(x)` on line 52 comes only afterwards. -/
def normalize_person_names (v : PyVal) : Except PyErr String :=
  match v with
  | .s str => .ok (personCore str)
  | _ => .error .typeError

/-- Fuel-indexed longest-common-subsequence length; fuel `a.length + b.length`
is sufficient (every recursive call lowers the combined length by at least
one, and at fuel 0 both lists are empty, where the value 0 is correct). -/
def lcsFuel : Nat → List Char → List Char → Nat
  | 0, _, _ => 0
  | _ + 1, [], _ => 0
  | _ + 1, _ :: _, [] => 0
  | n + 1, a :: as, b :: bs =>
    if a = b then 1 + lcsFuel n as bs
    else max (lcsFuel n (a :: as) bs) (lcsFuel n as (b :: bs))

def lcsLen (a b : List Char) : Nat :=
  lcsFuel (a.length + b.length) a b

/-- An exact nonnegative fraction `num / den` (`den` positive by
construction), the representation of scorer values.  Keeping the raw
numerator and denominator lets score comparisons reduce in the kernel by
cross-multiplication, without rational normalization. -/
structure Frac where
  num : Nat
  den : Nat
deriving DecidableEq, Repr

def Frac.toRat (f : Frac) : ℚ := (f.num : ℚ) / (f.den : ℚ)

/-- Strict comparison of fractions by cross-multiplication; for positive
denominators this is exactly `f.toRat < g.toRat`. -/
def Frac.blt (f g : Frac) : Bool := f.num * g.den < g.num * f.den

/-- `rapidfuzz.fuzz.ratio`: the Indel-based normalized similarity
`100 * (1 - dist / (l1 + l2))` with `dist = l1 + l2 - 2 * lcs`, i.e.
`200 * lcs / (l1 + l2)`; two empty strings score 100.  The library returns a
float, modelled here as an exact fraction. -/
def fuzzScore (a b : String) : Frac :=
  let la := a.length
  let lb := b.length
  if la + lb = 0 then ⟨100, 1⟩
  else ⟨200 * lcsLen a.toList b.toList, la + lb⟩

/-- `rapidfuzz.process.extractOne(q, choices, scorer=fuzz.ratio)` over a
pandas Series: iterate the choices in order, skipping `None`/NaN entries,
keeping the first choice attaining the maximum score (a later choice replaces
the incumbent only with a strictly larger score); `none` when no scorable
choice exists.  The third component is the Series index of the winner. -/
def extractOneGo (q : String) :
    List PyVal → Nat → Option (PyVal × Frac × Nat) → Option (PyVal × Frac × Nat)
  | [], _, best => best
  | .s c :: rest, idx, best =>
    let sc := fuzzScore q c
    extractOneGo q rest (idx + 1)
      (match best with
       | Option.none => some (.s c, sc, idx)
       | some (bc, bs, bi) =>
         if Frac.blt bs sc then some (.s c, sc, idx) else some (bc, bs, bi))
  | _ :: rest, idx, best => extractOneGo q rest (idx + 1) best

def extractOne (q : String) (choices : List PyVal) : Option (PyVal × Frac × Nat) :=
  extractOneGo q choices 0 Option.none

/-- Index of a column name in a column list (first occurrence). -/
def idxOf? : List String → String → Option Nat
  | [], _ => Option.none
  | c :: cs, t => if c = t then some 0 else (idxOf? cs t).map (· + 1)

/-- A pandas DataFrame: named columns and positional rows. -/
structure Df where
  cols : List String
  rows : List (List PyVal)
deriving DecidableEq, Repr

/-- A DataFrame row viewed as a Series (what `df.apply(..., axis=1)` passes):
it is indexed by the frame's column names. -/
structure Srow where
  cols : List String
  vals : List PyVal
deriving DecidableEq, Repr

/-- `row[c]`: `KeyError` when the column is not configured on the frame. -/
def Srow.get (r : Srow) (c : String) : Except PyErr PyVal :=
  match idxOf? r.cols c with
  | some idx => .ok (r.vals.getD idx PyVal.none)
  | Option.none => .error .keyError

def Df.colIdx (df : Df) (c : String) : Except PyErr Nat :=
  match idxOf? df.cols c with
  | some idx => .ok idx
  | Option.none => .error .keyError

/-- `df[c]`: the column as a list of values; `KeyError` when missing. -/
def Df.col (df : Df) (c : String) : Except PyErr (List PyVal) := do
  let idx ← df.colIdx c
  .ok (df.rows.map (fun r => r.getD idx PyVal.none))

/-- `df[df[c] == v]`: boolean-mask filtering, preserving row order. -/
def Df.maskEq (df : Df) (c : String) (v : PyVal) : Except PyErr Df := do
  let idx ← df.colIdx c
  .ok ⟨df.cols, df.rows.filter (fun r => r.getD idx PyVal.none == v)⟩

/-- `df.assign(**{c: vals})`: replace the column if it exists, else append it. -/
def Df.assign (df : Df) (c : String) (vals : List PyVal) : Df :=
  match idxOf? df.cols c with
  | some idx => ⟨df.cols, (df.rows.zip vals).map (fun p => p.1.set idx p.2)⟩
  | Option.none => ⟨df.cols ++ [c], (df.rows.zip vals).map (fun p => p.1 ++ [p.2])⟩

/-- The column-name configuration threaded through `fuzzy_match` (lines
60-62).  The year/quarter column names come from optional UI text boxes;
both Python `None` and the empty string are falsy in the `if` of line 92, so
an unconfigured column is modelled as `Option.none`. -/
structure MatchCfg where
  q_name_norm : String
  db_name_norm : String
  db_name_id : String
  db_name : String
  q_fy : Option String
  q_qtr : Option String
  db_fy : Option String
  db_qtr : Option String
deriving Repr

/-- Lines 91-95 of `retrieve_nn` (outside its `try`): restrict the database
to the query row's period.  `elif` semantics: the year+quarter branch needs
all four column names configured, the year-only branch needs the two year
columns, otherwise no filtering. -/
def periodFilter (cfg : MatchCfg) (x : Srow) (db : Df) : Except PyErr Df :=
  match cfg.q_fy, cfg.q_qtr, cfg.db_fy, cfg.db_qtr with
  | some qf, some qq, some dbf, some dbq => do
    let iy ← db.colIdx dbf
    let xf ← x.get qf
    let iq ← db.colIdx dbq
    let xq ← x.get qq
    .ok ⟨db.cols, db.rows.filter (fun r =>
      (r.getD iy PyVal.none == xf) && (r.getD iq PyVal.none == xq))⟩
  | some qf, _, some dbf, _ => do
    let iy ← db.colIdx dbf
    let xf ← x.get qf
    .ok ⟨db.cols, db.rows.filter (fun r => r.getD iy PyVal.none == xf)⟩
  | _, _, _, _ => .ok db

/-- `', '.join(str(x) for x in series.tolist())`. -/
def joinCommaStr (l : List PyVal) : String :=
  String.intercalate ", " (l.map pyStr)

/-- `series.item()`: the single element, `ValueError` unless the length is 1. -/
def seriesItem (l : List PyVal) : Except PyErr PyVal :=
  match l with
  | [v] => .ok v
  | _ => .error .valueError

/-- The `try` body of `retrieve_nn` (lines 98-104).  Line 101 reads
`str(id.item()) if len(id)==1 else ', '.join(...)`: the Series was bound to
`entity_id` on line 100 and the local name `id` is never assigned, so `id`
resolves to the Python builtin function `id`; evaluating the condition
`len(id)` therefore raises `TypeError` (and `id.item()` in the then-branch
would raise `AttributeError`).  A `None` result of `extractOne` makes the
tuple unpacking on line 99 raise `TypeError`. -/
def retrieveNNTry (cfg : MatchCfg) (x : Srow) (db : Df) :
    Except PyErr (PyVal × ℚ × PyVal × PyVal) := do
  let qv ← x.get cfg.q_name_norm
  let q ← pyAsStr qv
  let choices ← db.col cfg.db_name_norm
  match extractOne q choices with
  | Option.none => Except.error PyErr.typeError
  | some (nn, score, _) => do
    let sub ← db.maskEq cfg.db_name_norm nn
    let entity_id ← sub.col cfg.db_name_id
    let idLen ← pyLen (PyVal.b "id")
    let entityIdStr ←
      if idLen = 1 then (Except.error PyErr.attributeError : Except PyErr String)
      else Except.ok (joinCommaStr entity_id)
    let nameSer ← sub.col cfg.db_name
    let nameVal ←
      if nameSer.length = 1 then seriesItem nameSer
      else Except.ok (PyVal.s (joinCommaStr nameSer))
    Except.ok (nn, score.toRat, PyVal.s entityIdStr, nameVal)

/-- A per-row result tuple `(nn, score, entity_id, name)`, each component
absent when the row produced no match. -/
abbrev RowRes : Type :=
  Option PyVal × Option ℚ × Option PyVal × Option PyVal

/-- `retrieve_nn` (lines 88-106): period filtering outside the `try` (its
errors propagate), then the `try` body, with `except Exception` turning any
failure into `(None, None, None, None)`. -/
def retrieve_nn (cfg : MatchCfg) (x : Srow) (db : Df) : Except PyErr RowRes := do
  let db2 ← periodFilter cfg x db
  match retrieveNNTry cfg x db2 with
  | Except.ok (nn, sc, eid, nm) => Except.ok (some nn, some sc, some eid, some nm)
  | Except.error _ => Except.ok (Option.none, Option.none, Option.none, Option.none)

/-- `fuzzy_match` (lines 108-109): `query.progress_apply(lambda x:
retrieve_nn(x, db), axis=1)` — one result per query row in order; an
exception escaping `retrieve_nn` aborts the whole apply with no results. -/
def fuzzy_match (cfg : MatchCfg) (query : Df) (db : Df) :
    Except PyErr (List RowRes) :=
  query.rows.mapM (fun vals => retrieve_nn cfg ⟨query.cols, vals⟩ db)

/-- `df[name].map(normalizer)` followed by `df.assign(**{name + '_norm': ...})`
(lines 135-145): `KeyError` when the name column is missing, and any error of
the normalizer itself propagates. -/
def Df.assignNorm (df : Df) (nameCol : String)
    (f : PyVal → Except PyErr PyVal) : Except PyErr Df := do
  let col ← df.col nameCol
  let vals ← col.mapM f
  .ok (df.assign (nameCol ++ "_norm") vals)

/-- The `match` function (lines 112-163) restricted to the core engine: file
parsing/writing and the UI are external collaborators, so the two frames are
taken directly and the per-row results are returned instead of being written
out.  The whole body runs in one `try` whose `except` re-raises as
`gr.Error`, so an error value here is an aborted run with no output file.
Structure: normalization assignment for the recognized mode strings (an
unrecognized mode assigns nothing), then `fuzzy_match`, then
`zip(*results)` unpacked into four names — which raises `ValueError` when the
result list is empty.  `p_id` is accepted and unused, as in the source. -/
def matchRun (p_id p_name : String) (p_year p_qtr : Option String)
    (s_id s_name : String) (s_year s_qtr : Option String)
    (normalization : String) (pri sec : Df) : Except PyErr (List RowRes) := do
  let frames ←
    if normalization = "Firm (US)" then do
      let a ← pri.assignNorm p_name (fun v => .ok (.s (normalize_company_names .us v)))
      let b ← sec.assignNorm s_name (fun v => .ok (.s (normalize_company_names .us v)))
      Except.ok (a, b)
    else if normalization = "Firm (Int)" then do
      let a ← pri.assignNorm p_name (fun v => .ok (.s (normalize_company_names .int v)))
      let b ← sec.assignNorm s_name (fun v => .ok (.s (normalize_company_names .int v)))
      Except.ok (a, b)
    else if normalization = "Person" then do
      let a ← pri.assignNorm p_name (fun v => (normalize_person_names v).map PyVal.s)
      let b ← sec.assignNorm s_name (fun v => (normalize_person_names v).map PyVal.s)
      Except.ok (a, b)
    else Except.ok (pri, sec)
  let results ← fuzzy_match
    ⟨p_name ++ "_norm", s_name ++ "_norm", s_id, s_name, p_year, p_qtr, s_year, s_qtr⟩
    frames.1 frames.2
  if results.isEmpty then Except.error PyErr.valueError
  else Except.ok results

/-- Modelled from the spec (section 4.1, person step 2: "Remove known
professional-title/degree tokens ... wherever they occur as whole tokens"):
split the name on whitespace, drop exactly the tokens that are in the title
list, and rejoin.  This is the comparison definition for claim C10; the
source's title strip is `stripTitles` above. -/
def stripTitlesWholeTokens (l : List Char) : List Char :=
  (String.intercalate " "
    ((splitWs l).filterMap (fun t =>
      if titleTokens.contains (String.mk t) then Option.none
      else some (String.mk t)))).toList

/-! ### Helper lemmas: the `Except` monad -/

theorem exceptBind_eq_ok {ε α β : Type} {x : Except ε α} {f : α → Except ε β} {b : β} :
    (x >>= f) = Except.ok b ↔ ∃ a, x = Except.ok a ∧ f a = Except.ok b := by
  cases x <;> simp [Bind.bind, Except.bind]

theorem exceptOk_bind {ε α β : Type} (a : α) (f : α → Except ε β) :
    ((Except.ok a : Except ε α) >>= f) = f a := rfl

theorem exceptErr_bind {ε α β : Type} (e : ε) (f : α → Except ε β) :
    ((Except.error e : Except ε α) >>= f) = Except.error e := rfl

/-! ### The `retrieve_nn` `try` body always fails (the line-101 `id` bug) -/

/-- The `try` body of `retrieve_nn` can never return normally: either
`extractOne` yields `None` and the unpacking raises, or control reaches the
condition `len(id)` of line 101, which evaluates `len` on the Python builtin
`id` and raises `TypeError`. -/
theorem retrieveNNTry_ne_ok (cfg : MatchCfg) (x : Srow) (db : Df)
    (r : PyVal × ℚ × PyVal × PyVal) : retrieveNNTry cfg x db ≠ Except.ok r := by
  intro h
  unfold retrieveNNTry at h
  rw [exceptBind_eq_ok] at h
  obtain ⟨qv, _, h⟩ := h
  rw [exceptBind_eq_ok] at h
  obtain ⟨q, _, h⟩ := h
  rw [exceptBind_eq_ok] at h
  obtain ⟨choices, _, h⟩ := h
  cases hex : extractOne q choices with
  | none => rw [hex] at h; cases h
  | some t =>
    obtain ⟨nn, score, i3⟩ := t
    rw [hex] at h
    simp only at h
    rw [exceptBind_eq_ok] at h
    obtain ⟨sub, _, h⟩ := h
    rw [exceptBind_eq_ok] at h
    obtain ⟨eid, _, h⟩ := h
    rw [exceptBind_eq_ok] at h
    obtain ⟨idLen, hlen, _⟩ := h
    exact absurd hlen (by simp [pyLen])

/-- When the period filter succeeds, `retrieve_nn` returns the all-absent
tuple (the `except Exception` branch). -/
theorem retrieve_nn_of_filter_ok (cfg : MatchCfg) (x : Srow) (db d : Df)
    (h : periodFilter cfg x db = Except.ok d) :
    retrieve_nn cfg x db =
      Except.ok (Option.none, Option.none, Option.none, Option.none) := by
  unfold retrieve_nn
  rw [h, exceptOk_bind]
  cases htry : retrieveNNTry cfg x d with
  | ok v => exact absurd htry (retrieveNNTry_ne_ok cfg x d v)
  | error e => rfl

/-- Any normal return of `retrieve_nn` is the all-absent tuple. -/
theorem retrieve_nn_ok_absent (cfg : MatchCfg) (x : Srow) (db : Df) (r : RowRes)
    (h : retrieve_nn cfg x db = Except.ok r) :
    r = (Option.none, Option.none, Option.none, Option.none) := by
  unfold retrieve_nn at h
  rw [exceptBind_eq_ok] at h
  obtain ⟨d, _, h⟩ := h
  cases htry : retrieveNNTry cfg x d with
  | ok v => exact absurd htry (retrieveNNTry_ne_ok cfg x d v)
  | error e =>
    rw [htry] at h
    exact (Except.ok.inj h).symm

/-- When every row's period filter succeeds, the whole `fuzzy_match` pass
succeeds and every row yields the all-absent tuple. -/
theorem mapM_retrieve_replicate (cfg : MatchCfg) (cols : List String) (db : Df) :
    ∀ rows : List (List PyVal),
      (∀ vals ∈ rows, (periodFilter cfg ⟨cols, vals⟩ db).isOk = true) →
      rows.mapM (fun vals => retrieve_nn cfg ⟨cols, vals⟩ db) =
        Except.ok (List.replicate rows.length
          (Option.none, Option.none, Option.none, Option.none)) := by
  intro rows
  induction rows with
  | nil => intro _; rfl
  | cons v vs ih =>
    intro hall
    rw [List.mapM_cons]
    have hv := hall v (by simp)
    obtain ⟨d, hd⟩ : ∃ d, periodFilter cfg ⟨cols, v⟩ db = Except.ok d := by
      cases hp : periodFilter cfg ⟨cols, v⟩ db with
      | ok d => exact ⟨d, rfl⟩
      | error e => rw [hp] at hv; cases hv
    rw [retrieve_nn_of_filter_ok cfg ⟨cols, v⟩ db d hd, exceptOk_bind]
    rw [ih (fun w hw => hall w (List.mem_cons_of_mem v hw)), exceptOk_bind]
    rfl

instance {ε α : Type} [DecidableEq ε] [DecidableEq α] : DecidableEq (Except ε α) := fun x y =>
  match x, y with
  | .ok a, .ok b =>
    if h : a = b then isTrue (h ▸ rfl) else isFalse (fun hh => h (Except.ok.inj hh))
  | .error a, .error b =>
    if h : a = b then isTrue (h ▸ rfl) else isFalse (fun hh => h (Except.error.inj hh))
  | .ok _, .error _ => isFalse (fun hh => Except.noConfusion hh)
  | .error _, .ok _ => isFalse (fun hh => Except.noConfusion hh)

/-- Every tuple in a normal `fuzzy_match` result is all-absent. -/
theorem mapM_retrieve_ok_absent (cfg : MatchCfg) (cols : List String) (db : Df) :
    ∀ (rows : List (List PyVal)) (rs : List RowRes),
      rows.mapM (fun vals => retrieve_nn cfg ⟨cols, vals⟩ db) = Except.ok rs →
      ∀ t ∈ rs, t = (Option.none, Option.none, Option.none, Option.none) := by
  intro rows
  induction rows with
  | nil =>
    intro rs h t ht
    rw [List.mapM_nil] at h
    cases h
    cases ht
  | cons v vs ih =>
    intro rs h t ht
    rw [List.mapM_cons] at h
    rw [exceptBind_eq_ok] at h
    obtain ⟨b, hb, h⟩ := h
    rw [exceptBind_eq_ok] at h
    obtain ⟨bs, hbs, h⟩ := h
    have hrs : rs = b :: bs := (Except.ok.inj h).symm
    subst hrs
    rcases List.mem_cons.mp ht with h1 | h2
    · subst h1
      exact retrieve_nn_ok_absent cfg ⟨cols, v⟩ db t hb
    · exact ih bs hbs t h2

/-- Claim C2: for every query row, `retrieve_nn` returns the all-absent tuple
`(None, None, None, None)` whenever it returns at all.  When
`process.extractOne` finds a best candidate, the identifier-aggregation
conditional evaluates `len(id)` on the Python builtin `id` (the looked-up
Series is bound to `entity_id`, never to `id`), which raises `TypeError`; the
enclosing `except` converts this to `(None, None, None, None)`, and when no
candidate exists the unpacking of `extractOne`'s `None` result is caught the
same way.  Hence `fuzzy_match` never produces a non-absent matched key,
score, identifier, or name for any row. -/
theorem claim_C2 (cfg : MatchCfg) (x : Srow) (query db : Df) (r : RowRes)
    (rs : List RowRes) :
    (retrieve_nn cfg x db = Except.ok r →
      r = (Option.none, Option.none, Option.none, Option.none))
  ∧ (fuzzy_match cfg query db = Except.ok rs →
      ∀ t ∈ rs, t = (Option.none, Option.none, Option.none, Option.none)) := by
  constructor
  · exact retrieve_nn_ok_absent cfg x db r
  · intro h
    exact mapM_retrieve_ok_absent cfg query.cols db query.rows rs h

/-- Witness for claim C2 at a concrete one-row query and reference. -/
theorem claim_C2_witness :
    (retrieve_nn
        ⟨"nm_norm", "nm_norm", "id", "nm", Option.none, Option.none, Option.none, Option.none⟩
        ⟨["id", "nm_norm"], [PyVal.i 1, PyVal.s "acme"]⟩
        ⟨["id", "nm", "nm_norm"], [[PyVal.i 7, PyVal.s "Acme Inc", PyVal.s "acme"]]⟩ =
      Except.ok ((Option.none, Option.none, Option.none, Option.none) : RowRes))
  ∧ (((Option.none, Option.none, Option.none, Option.none) : RowRes) =
      (Option.none, Option.none, Option.none, Option.none)) :=
  ⟨by decide,
   (claim_C2
      ⟨"nm_norm", "nm_norm", "id", "nm", Option.none, Option.none, Option.none, Option.none⟩
      ⟨["id", "nm_norm"], [PyVal.i 1, PyVal.s "acme"]⟩
      ⟨["id", "nm_norm"], []⟩
      ⟨["id", "nm", "nm_norm"], [[PyVal.i 7, PyVal.s "Acme Inc", PyVal.s "acme"]]⟩
      (Option.none, Option.none, Option.none, Option.none) []).1 (by decide)⟩

/-- Claim C7: a query row whose filtered candidate set is empty yields the
all-absent tuple without raising, and when every row's filter succeeds the
whole run processes all query rows and produces a result for each. -/
theorem claim_C7 (cfg : MatchCfg) (query db : Df)
    (hok : ∀ vals ∈ query.rows, (periodFilter cfg ⟨query.cols, vals⟩ db).isOk = true) :
    ∃ rs, fuzzy_match cfg query db = Except.ok rs ∧
      rs.length = query.rows.length ∧
      ∀ vals ∈ query.rows, ∀ d, periodFilter cfg ⟨query.cols, vals⟩ db = Except.ok d →
        d.rows = [] →
        retrieve_nn cfg ⟨query.cols, vals⟩ db =
          Except.ok (Option.none, Option.none, Option.none, Option.none) := by
  refine ⟨List.replicate query.rows.length
    (Option.none, Option.none, Option.none, Option.none), ?_, ?_, ?_⟩
  · exact mapM_retrieve_replicate cfg query.cols db query.rows hok
  · exact List.length_replicate _ _
  · intro vals _ d hd _
    exact retrieve_nn_of_filter_ok cfg ⟨query.cols, vals⟩ db d hd

/-- Witness for claim C7: a two-row query under year+quarter filtering whose
first row has no eligible reference candidates (its period is (1999,1) while
the only reference row is at (2020,1)). -/
theorem claim_C7_witness :
    (∀ vals ∈ (⟨["nm_norm", "fy", "qtr"],
        [[PyVal.s "acme", PyVal.i 1999, PyVal.i 1],
         [PyVal.s "acme", PyVal.i 2020, PyVal.i 1]]⟩ : Df).rows,
      (periodFilter
        ⟨"nm_norm", "nm_norm", "id", "nm", some "fy", some "qtr", some "fy", some "qtr"⟩
        ⟨["nm_norm", "fy", "qtr"], vals⟩
        ⟨["id", "nm", "nm_norm", "fy", "qtr"],
         [[PyVal.i 7, PyVal.s "Acme Inc", PyVal.s "acme", PyVal.i 2020, PyVal.i 1]]⟩).isOk =
        true)
  ∧ (∃ rs, fuzzy_match
        ⟨"nm_norm", "nm_norm", "id", "nm", some "fy", some "qtr", some "fy", some "qtr"⟩
        (⟨["nm_norm", "fy", "qtr"],
          [[PyVal.s "acme", PyVal.i 1999, PyVal.i 1],
           [PyVal.s "acme", PyVal.i 2020, PyVal.i 1]]⟩ : Df)
        ⟨["id", "nm", "nm_norm", "fy", "qtr"],
         [[PyVal.i 7, PyVal.s "Acme Inc", PyVal.s "acme", PyVal.i 2020, PyVal.i 1]]⟩ =
        Except.ok rs ∧
      rs.length = (⟨["nm_norm", "fy", "qtr"],
          [[PyVal.s "acme", PyVal.i 1999, PyVal.i 1],
           [PyVal.s "acme", PyVal.i 2020, PyVal.i 1]]⟩ : Df).rows.length ∧
      ∀ vals ∈ (⟨["nm_norm", "fy", "qtr"],
          [[PyVal.s "acme", PyVal.i 1999, PyVal.i 1],
           [PyVal.s "acme", PyVal.i 2020, PyVal.i 1]]⟩ : Df).rows,
        ∀ d, periodFilter
            ⟨"nm_norm", "nm_norm", "id", "nm", some "fy", some "qtr", some "fy", some "qtr"⟩
            ⟨["nm_norm", "fy", "qtr"], vals⟩
            ⟨["id", "nm", "nm_norm", "fy", "qtr"],
             [[PyVal.i 7, PyVal.s "Acme Inc", PyVal.s "acme", PyVal.i 2020, PyVal.i 1]]⟩ =
            Except.ok d →
          d.rows = [] →
          retrieve_nn
            ⟨"nm_norm", "nm_norm", "id", "nm", some "fy", some "qtr", some "fy", some "qtr"⟩
            ⟨["nm_norm", "fy", "qtr"], vals⟩
            ⟨["id", "nm", "nm_norm", "fy", "qtr"],
             [[PyVal.i 7, PyVal.s "Acme Inc", PyVal.s "acme", PyVal.i 2020, PyVal.i 1]]⟩ =
            Except.ok (Option.none, Option.none, Option.none, Option.none)) :=
  ⟨by decide, claim_C7 _ _ _ (by decide)⟩

/-- Claim C6: with year and quarter configured on both sides, exactly the
reference rows matching both the query row's year and quarter are eligible;
with only year configured on both sides, exactly the rows with equal year;
otherwise every reference row is eligible. -/
theorem claim_C6 (cfg : MatchCfg) (x : Srow) (db : Df) :
    (∀ qf qq dbf dbq iy xf iq xq,
        cfg.q_fy = some qf → cfg.q_qtr = some qq →
        cfg.db_fy = some dbf → cfg.db_qtr = some dbq →
        db.colIdx dbf = Except.ok iy → x.get qf = Except.ok xf →
        db.colIdx dbq = Except.ok iq → x.get qq = Except.ok xq →
        ∃ d, periodFilter cfg x db = Except.ok d ∧ d.cols = db.cols ∧
          ∀ r, r ∈ d.rows ↔
            r ∈ db.rows ∧ r.getD iy PyVal.none = xf ∧ r.getD iq PyVal.none = xq)
  ∧ (∀ qf dbf iy xf,
        cfg.q_fy = some qf → cfg.db_fy = some dbf →
        (cfg.q_qtr = Option.none ∨ cfg.db_qtr = Option.none) →
        db.colIdx dbf = Except.ok iy → x.get qf = Except.ok xf →
        ∃ d, periodFilter cfg x db = Except.ok d ∧ d.cols = db.cols ∧
          ∀ r, r ∈ d.rows ↔ r ∈ db.rows ∧ r.getD iy PyVal.none = xf)
  ∧ ((cfg.q_fy = Option.none ∨ cfg.db_fy = Option.none) →
        periodFilter cfg x db = Except.ok db) := by
  obtain ⟨cn1, cn2, cn3, cn4, cqf, cqq, cdf, cdq⟩ := cfg
  refine ⟨?_, ?_, ?_⟩
  · intro qf qq dbf dbq iy xf iq xq h1 h2 h3 h4 h5 h6 h7 h8
    simp only at h1 h2 h3 h4
    subst h1 h2 h3 h4
    have hred : periodFilter ⟨cn1, cn2, cn3, cn4, some qf, some qq, some dbf, some dbq⟩ x db =
        (do
          let iy2 ← db.colIdx dbf
          let xf2 ← x.get qf
          let iq2 ← db.colIdx dbq
          let xq2 ← x.get qq
          Except.ok (⟨db.cols, db.rows.filter (fun r =>
            (r.getD iy2 PyVal.none == xf2) && (r.getD iq2 PyVal.none == xq2))⟩ : Df)) := rfl
    rw [hred, h5, exceptOk_bind, h6, exceptOk_bind, h7, exceptOk_bind, h8, exceptOk_bind]
    refine ⟨_, rfl, rfl, ?_⟩
    intro r
    simp [List.mem_filter, and_assoc]
  · intro qf dbf iy xf h1 h3 hdisj h5 h6
    simp only at h1 h3
    subst h1 h3
    have hred : periodFilter ⟨cn1, cn2, cn3, cn4, some qf, cqq, some dbf, cdq⟩ x db =
        (do
          let iy2 ← db.colIdx dbf
          let xf2 ← x.get qf
          Except.ok (⟨db.cols, db.rows.filter (fun r =>
            r.getD iy2 PyVal.none == xf2)⟩ : Df)) := by
      rcases hdisj with h | h
      · simp only at h; subst h; cases cdq <;> rfl
      · simp only at h; subst h; cases cqq <;> rfl
    rw [hred, h5, exceptOk_bind, h6, exceptOk_bind]
    refine ⟨_, rfl, rfl, ?_⟩
    intro r
    simp [List.mem_filter]
  · intro hdisj
    rcases hdisj with h | h
    · simp only at h; subst h
      cases cqq <;> cases cdf <;> cases cdq <;> rfl
    · simp only at h; subst h
      cases cqf <;> cases cqq <;> cases cdq <;> rfl

/-- Witness for claim C6 at the spec's scenario: query period (2020,1) against
reference rows at (2020,1), (2020,2), (2019,1) — only the (2020,1) row is
eligible. -/
theorem claim_C6_witness :
    ((⟨["id", "nm_norm", "fy", "qtr"],
        [[PyVal.i 1, PyVal.s "acme", PyVal.i 2020, PyVal.i 1],
         [PyVal.i 2, PyVal.s "acme", PyVal.i 2020, PyVal.i 2],
         [PyVal.i 3, PyVal.s "acme", PyVal.i 2019, PyVal.i 1]]⟩ : Df).colIdx "fy" =
        Except.ok 2
      ∧ (⟨["nm_norm", "fy", "qtr"],
          [PyVal.s "acme", PyVal.i 2020, PyVal.i 1]⟩ : Srow).get "fy" =
        Except.ok (PyVal.i 2020))
  ∧ (∃ d, periodFilter
        ⟨"nm_norm", "nm_norm", "id", "nm", some "fy", some "qtr", some "fy", some "qtr"⟩
        ⟨["nm_norm", "fy", "qtr"], [PyVal.s "acme", PyVal.i 2020, PyVal.i 1]⟩
        ⟨["id", "nm_norm", "fy", "qtr"],
         [[PyVal.i 1, PyVal.s "acme", PyVal.i 2020, PyVal.i 1],
          [PyVal.i 2, PyVal.s "acme", PyVal.i 2020, PyVal.i 2],
          [PyVal.i 3, PyVal.s "acme", PyVal.i 2019, PyVal.i 1]]⟩ = Except.ok d ∧
      d.cols = ["id", "nm_norm", "fy", "qtr"] ∧
      ∀ r, r ∈ d.rows ↔
        r ∈ [[PyVal.i 1, PyVal.s "acme", PyVal.i 2020, PyVal.i 1],
             [PyVal.i 2, PyVal.s "acme", PyVal.i 2020, PyVal.i 2],
             [PyVal.i 3, PyVal.s "acme", PyVal.i 2019, PyVal.i 1]] ∧
          r.getD 2 PyVal.none = PyVal.i 2020 ∧ r.getD 3 PyVal.none = PyVal.i 1) :=
  ⟨⟨by decide, by decide⟩,
   (claim_C6
      ⟨"nm_norm", "nm_norm", "id", "nm", some "fy", some "qtr", some "fy", some "qtr"⟩
      ⟨["nm_norm", "fy", "qtr"], [PyVal.s "acme", PyVal.i 2020, PyVal.i 1]⟩
      ⟨["id", "nm_norm", "fy", "qtr"],
       [[PyVal.i 1, PyVal.s "acme", PyVal.i 2020, PyVal.i 1],
        [PyVal.i 2, PyVal.s "acme", PyVal.i 2020, PyVal.i 2],
        [PyVal.i 3, PyVal.s "acme", PyVal.i 2019, PyVal.i 1]]⟩).1
     "fy" "qtr" "fy" "qtr" 2 (PyVal.i 2020) 3 (PyVal.i 1)
     rfl rfl rfl rfl (by decide) (by decide) (by decide) (by decide)⟩

/-- A column access on a missing column is a `KeyError`. -/
theorem Df.col_err (df : Df) (c : String) (h : idxOf? df.cols c = Option.none) :
    df.col c = Except.error PyErr.keyError := by
  unfold Df.col Df.colIdx
  rw [h]
  rfl

/-- Normalization assignment fails fast when the configured name column is
missing from the frame. -/
theorem assignNorm_err (df : Df) (c : String) (f : PyVal → Except PyErr PyVal)
    (h : idxOf? df.cols c = Option.none) :
    df.assignNorm c f = Except.error PyErr.keyError := by
  unfold Df.assignNorm
  rw [Df.col_err df c h, exceptErr_bind]

/-- Counterexample to claim C8: a run with an unset `NormalizationMode` (the
empty radio value `""`) does not abort — it completes normally and produces a
per-row `MatchResult` (the all-absent tuple) for its query row, because the
per-row `except Exception` swallows the `KeyError` on the never-created
`_norm` column. -/
theorem claim_C8_counterexample :
    matchRun "id" "nm" Option.none Option.none "id" "nm" Option.none Option.none ""
        ⟨["id", "nm"], [[PyVal.i 1, PyVal.s "Acme"]]⟩
        ⟨["id", "nm"], [[PyVal.i 10, PyVal.s "Acme Inc"]]⟩ =
      Except.ok [(Option.none, Option.none, Option.none, Option.none)]
  ∧ ([(Option.none, Option.none, Option.none, Option.none)] : List RowRes) ≠ [] :=
  ⟨by decide, by decide⟩

/-- Claim C8 as amended: a recognized mode with the configured query-side name
column missing from the query dataset aborts the whole run with an error
before any per-row result is produced; but an incompatible/unset
`NormalizationMode` does not abort — with no period columns configured the
run completes and every query row yields the all-absent result. -/
theorem claim_C8 (p_id p_name s_id s_name normalization : String)
    (p_year p_qtr s_year s_qtr : Option String) (pri sec : Df) :
    ((normalization = "Firm (US)" ∨ normalization = "Firm (Int)" ∨
        normalization = "Person") →
      idxOf? pri.cols p_name = Option.none →
      matchRun p_id p_name p_year p_qtr s_id s_name s_year s_qtr
        normalization pri sec = Except.error PyErr.keyError)
  ∧ (normalization ≠ "Firm (US)" → normalization ≠ "Firm (Int)" →
      normalization ≠ "Person" →
      p_year = Option.none → p_qtr = Option.none →
      s_year = Option.none → s_qtr = Option.none →
      pri.rows ≠ [] →
      matchRun p_id p_name p_year p_qtr s_id s_name s_year s_qtr
        normalization pri sec =
        Except.ok (List.replicate pri.rows.length
          (Option.none, Option.none, Option.none, Option.none))) := by
  constructor
  · intro hmode hmiss
    unfold matchRun
    rcases hmode with h | h | h <;> subst h
    · rw [if_pos rfl, assignNorm_err pri p_name _ hmiss, exceptErr_bind]
    · rw [if_neg (by decide), if_pos rfl, assignNorm_err pri p_name _ hmiss,
        exceptErr_bind]
    · rw [if_neg (by decide), if_neg (by decide), if_pos rfl,
        assignNorm_err pri p_name _ hmiss, exceptErr_bind]
  · intro h1 h2 h3 hy hq hsy hsq hrows
    subst hy hq hsy hsq
    unfold matchRun
    rw [if_neg h1, if_neg h2, if_neg h3]
    simp only [exceptOk_bind]
    unfold fuzzy_match
    rw [mapM_retrieve_replicate
      ⟨p_name ++ "_norm", s_name ++ "_norm", s_id, s_name,
        Option.none, Option.none, Option.none, Option.none⟩
      pri.cols sec pri.rows (fun vals _ => rfl)]
    simp only [exceptOk_bind]
    have hne : (List.replicate pri.rows.length
        ((Option.none, Option.none, Option.none, Option.none) : RowRes)).isEmpty = false := by
      cases hp : pri.rows with
      | nil => exact absurd hp hrows
      | cons a l => rfl
    simp [hne]

/-- Witness for claim C8: a US-mode run whose query frame lacks the configured
name column `nm` aborts with `KeyError`, while a run with the unrecognized
mode string `"Nope"` completes and emits an all-absent row result. -/
theorem claim_C8_witness :
    idxOf? (["id"] : List String) "nm" = Option.none
  ∧ matchRun "id" "nm" Option.none Option.none "id" "nm" Option.none Option.none
      "Firm (US)" ⟨["id"], [[PyVal.i 1]]⟩ ⟨["id", "nm"], [[PyVal.i 10, PyVal.s "X"]]⟩ =
      Except.error PyErr.keyError
  ∧ matchRun "id" "nm" Option.none Option.none "id" "nm" Option.none Option.none
      "Nope" ⟨["id", "nm"], [[PyVal.i 1, PyVal.s "A"]]⟩
      ⟨["id", "nm"], [[PyVal.i 10, PyVal.s "X"]]⟩ =
      Except.ok [(Option.none, Option.none, Option.none, Option.none)] :=
  ⟨by decide,
   (claim_C8 "id" "nm" "id" "nm" "Firm (US)" Option.none Option.none Option.none Option.none
      ⟨["id"], [[PyVal.i 1]]⟩ ⟨["id", "nm"], [[PyVal.i 10, PyVal.s "X"]]⟩).1
     (Or.inl rfl) (by decide),
   (claim_C8 "id" "nm" "id" "nm" "Nope" Option.none Option.none Option.none Option.none
      ⟨["id", "nm"], [[PyVal.i 1, PyVal.s "A"]]⟩
      ⟨["id", "nm"], [[PyVal.i 10, PyVal.s "X"]]⟩).2
     (by decide) (by decide) (by decide) rfl rfl rfl rfl (by decide)⟩

/-- Claim C1 (code bug): normalization does derive the canonical key `acme`
for both `The Acme Corp` and `ACME Company` under US mode, but the end-to-end
run does not report the match — because line 101 evaluates `len(id)` on the
Python builtin `id`, the row's result is the all-absent tuple instead of
`("acme", 100, identifier)`. -/
theorem claim_C1 :
    normalize_company_names .us (.s "The Acme Corp") = "acme"
  ∧ normalize_company_names .us (.s "ACME Company") = "acme"
  ∧ matchRun "gvkey" "conm" Option.none Option.none "gvkey" "conm"
      Option.none Option.none "Firm (US)"
      ⟨["gvkey", "conm"], [[PyVal.i 1, PyVal.s "The Acme Corp"]]⟩
      ⟨["gvkey", "conm"], [[PyVal.i 7, PyVal.s "ACME Company"]]⟩ =
      Except.ok [(Option.none, Option.none, Option.none, Option.none)] :=
  ⟨by decide, by decide, by decide⟩

/-- Claim C3 (code bug): two reference rows with identifiers 10 and 11 both
normalize to `acme`, but the aggregation step is never reached — the
`len(id)` `TypeError` of line 101 hits first, so the query row's result is
all-absent instead of the comma-joined `10, 11`. -/
theorem claim_C3 :
    normalize_company_names .us (.s "Acme Inc") = "acme"
  ∧ normalize_company_names .us (.s "Acme Corp") = "acme"
  ∧ matchRun "id" "nm" Option.none Option.none "id" "nm"
      Option.none Option.none "Firm (US)"
      ⟨["id", "nm"], [[PyVal.i 1, PyVal.s "Acme"]]⟩
      ⟨["id", "nm"], [[PyVal.i 10, PyVal.s "Acme Inc"], [PyVal.i 11, PyVal.s "Acme Corp"]]⟩ =
      Except.ok [(Option.none, Option.none, Option.none, Option.none)] :=
  ⟨by decide, by decide, by decide⟩

/-- Counterexample to claim C4: `normalize_person_names` applies the regex
substitution to the raw input before the `str(x)` coercion of line 52, so a
non-string input raises `TypeError` instead of being coerced. -/
theorem claim_C4_counterexample :
    normalize_person_names (PyVal.i 123) = Except.error PyErr.typeError := by
  decide

/-- Claim C4 as amended: the company normalizer coerces any input to its
string form first and always returns a string; the person normalizer never
fails on string input (always returning a string), but raises `TypeError` on
every non-string input because its character filter runs before the `str`
coercion. -/
theorem claim_C4 :
    (∀ (g : Geography) (v : PyVal),
      normalize_company_names g v = normalize_company_names g (.s (pyStr v)))
  ∧ (∀ x : String, ∃ y : String, normalize_person_names (.s x) = Except.ok y)
  ∧ (∀ n : Int, normalize_person_names (.i n) = Except.error PyErr.typeError)
  ∧ (∀ nm : String, normalize_person_names (.b nm) = Except.error PyErr.typeError)
  ∧ normalize_person_names PyVal.none = Except.error PyErr.typeError :=
  ⟨fun _ _ => rfl, fun x => ⟨personCore x, rfl⟩, fun _ => rfl, fun _ => rfl, rfl⟩

/-! ### Character-level lemmas -/

theorem charToNat_ofNat {n : Nat} (h : n < 55296) : (Char.ofNat n).toNat = n := by
  have hv : n.isValidChar := Or.inl h
  rw [Char.ofNat, dif_pos hv]
  simp [Char.ofNatAux, Char.toNat, UInt32.toNat]

/-- ASCII lowercasing is idempotent. -/
theorem pyLower_pyLower (c : Char) : pyLower (pyLower c) = pyLower c := by
  unfold pyLower
  by_cases h : 65 ≤ c.toNat ∧ c.toNat ≤ 90
  · rw [if_pos h]
    have ht : (Char.ofNat (c.toNat + 32)).toNat = c.toNat + 32 := charToNat_ofNat (by omega)
    rw [if_neg (by rw [ht]; omega)]
  · rw [if_neg h, if_neg h]

theorem isPersonChar_pyLower (c : Char) (h : isPersonChar c = true) :
    isPersonChar (pyLower c) = true := by
  unfold pyLower
  by_cases hc : 65 ≤ c.toNat ∧ c.toNat ≤ 90
  · rw [if_pos hc]
    have ht : (Char.ofNat (c.toNat + 32)).toNat = c.toNat + 32 := charToNat_ofNat (by omega)
    have hk : isKeyChar (Char.ofNat (c.toNat + 32)) = true := by
      simp only [isKeyChar, ht]
      simp only [Bool.or_eq_true, Bool.and_eq_true, decide_eq_true_eq]
      omega
    simp [isPersonChar, hk]
  · rw [if_neg hc]
    exact h

theorem isKeyChar_ne_space {c : Char} (h : isKeyChar c = true) : c ≠ ' ' := by
  intro heq
  subst heq
  exact absurd h (by decide)

theorem isKeyChar_toNat {c : Char} (h : isKeyChar c = true) : 48 ≤ c.toNat := by
  simp only [isKeyChar, Bool.or_eq_true, Bool.and_eq_true, decide_eq_true_eq] at h
  omega

theorem beq_false_of_toNat_ne {c d : Char} (h : c.toNat ≠ d.toNat) : (c == d) = false := by
  cases hb : c == d
  · rfl
  · exact absurd (congrArg Char.toNat (beq_iff_eq.mp hb)) h

theorem isKeyChar_not_pySpace {c : Char} (h : isKeyChar c = true) : isPySpace c = false := by
  have h48 := isKeyChar_toNat h
  unfold isPySpace
  rw [beq_false_of_toNat_ne (by rw [show (' ').toNat = 32 from rfl]; omega),
    beq_false_of_toNat_ne (by rw [show ('\t').toNat = 9 from rfl]; omega),
    beq_false_of_toNat_ne (by rw [show ('\n').toNat = 10 from rfl]; omega),
    beq_false_of_toNat_ne (by rw [show ('\r').toNat = 13 from rfl]; omega),
    beq_false_of_toNat_ne (by rw [show ('\x0b').toNat = 11 from rfl]; omega),
    beq_false_of_toNat_ne (by rw [show ('\x0c').toNat = 12 from rfl]; omega)]
  rfl

/-! ### List-level utility lemmas -/

theorem dropWhile_eq_self_of {p : Char → Bool} {l : List Char}
    (h : ∀ c ∈ l, p c = false) : l.dropWhile p = l := by
  cases l with
  | nil => rfl
  | cons a t => simp [List.dropWhile_cons, h a (by simp)]

theorem trimChars_eq_self {l : List Char} (h : ∀ c ∈ l, isPySpace c = false) :
    trimChars l = l := by
  unfold trimChars
  rw [dropWhile_eq_self_of h]
  rw [dropWhile_eq_self_of (fun c hc => h c (List.mem_reverse.mp hc))]
  exact List.reverse_reverse l

theorem trimChars_subset (l : List Char) : trimChars l ⊆ l := by
  intro c hc
  unfold trimChars at hc
  rw [List.mem_reverse] at hc
  have h1 := (List.dropWhile_sublist (l := (l.dropWhile isPySpace).reverse)
    (p := isPySpace)).subset hc
  rw [List.mem_reverse] at h1
  exact (List.dropWhile_sublist (l := l) (p := isPySpace)).subset h1

theorem trimChars_length_le (l : List Char) : (trimChars l).length ≤ l.length := by
  unfold trimChars
  rw [List.length_reverse]
  calc ((l.dropWhile isPySpace).reverse.dropWhile isPySpace).length
      ≤ (l.dropWhile isPySpace).reverse.length :=
        (List.dropWhile_sublist _).length_le
    _ = (l.dropWhile isPySpace).length := List.length_reverse _
    _ ≤ l.length := (List.dropWhile_sublist _).length_le

theorem stripTrailArtifact_subset (l : List Char) : stripTrailArtifact l ⊆ l := by
  induction l with
  | nil => intro c hc; simp [stripTrailArtifact] at hc
  | cons a t ih =>
    intro c hc
    simp only [stripTrailArtifact] at hc
    split at hc
    · cases hc
    · rcases List.mem_cons.mp hc with h1 | h1
      · subst h1; exact List.mem_cons_self _ _
      · exact List.mem_cons_of_mem _ (ih h1)

theorem stripTrailArtifact_eq_self {l : List Char} (h : ∀ c ∈ l, c ≠ ' ') :
    stripTrailArtifact l = l := by
  induction l with
  | nil => rfl
  | cons a t ih =>
    have ha : (a = ' ') = False := eq_false (h a (List.mem_cons_self _ _))
    simp only [stripTrailArtifact, ha, decide_False, Bool.false_and, Bool.false_eq_true,
      if_false]
    exact congrArg (a :: ·) (ih (fun c hc => h c (List.mem_cons_of_mem _ hc)))

theorem mem_of_dropSuffixIf_some {sfx x y : List Char}
    (h : dropSuffixIf sfx x = some y) : y ⊆ x := by
  unfold dropSuffixIf at h
  split at h
  · exact (Option.some.inj h) ▸ List.take_subset _ _
  · cases h

theorem dropSuffixIf_eq_none {sfx x : List Char} {c : Char}
    (hc : c ∈ sfx) (hx : c ∉ x) : dropSuffixIf sfx x = Option.none := by
  unfold dropSuffixIf
  rw [if_neg]
  intro hs
  rw [List.isSuffixOf_iff_suffix] at hs
  exact hx (hs.subset hc)

theorem stripShareClass_subset (x : List Char) : stripShareClass x ⊆ x := by
  unfold stripShareClass
  split
  · rename_i y heq; exact mem_of_dropSuffixIf_some heq
  · split
    · rename_i y heq; exact mem_of_dropSuffixIf_some heq
    · split
      · rename_i y heq; exact mem_of_dropSuffixIf_some heq
      · split
        · rename_i y heq; exact mem_of_dropSuffixIf_some heq
        · split
          · rename_i y heq; exact mem_of_dropSuffixIf_some heq
          · exact fun c hc => hc

theorem stripShareClass_eq_self {x : List Char} (h : ' ' ∉ x) :
    stripShareClass x = x := by
  have e1 : dropSuffixIf " cl a".toList x = Option.none := dropSuffixIf_eq_none (by decide) h
  have e2 : dropSuffixIf " cl b".toList x = Option.none := dropSuffixIf_eq_none (by decide) h
  have e3 : dropSuffixIf " cla".toList x = Option.none := dropSuffixIf_eq_none (by decide) h
  have e4 : dropSuffixIf " clb".toList x = Option.none := dropSuffixIf_eq_none (by decide) h
  have e5 : dropSuffixIf " redh".toList x = Option.none := dropSuffixIf_eq_none (by decide) h
  unfold stripShareClass
  rw [e1, e2, e3, e4, e5]

theorem stripHyphenOld_subset (x : List Char) : stripHyphenOld x ⊆ x := by
  unfold stripHyphenOld
  split
  · rename_i y heq; exact mem_of_dropSuffixIf_some heq
  · exact fun c hc => hc

theorem stripHyphenOld_eq_self {x : List Char} (h : '-' ∉ x) :
    stripHyphenOld x = x := by
  have e1 : dropSuffixIf "-old".toList x = Option.none := dropSuffixIf_eq_none (by decide) h
  unfold stripHyphenOld
  rw [e1]

theorem replaceAnd_eq_self {l : List Char} (h : ' ' ∉ l) : replaceAnd l = l := by
  induction l with
  | nil => rfl
  | cons a t ih =>
    rw [replaceAnd.eq_def]
    split
    · rename_i x rest heq
      have ha : a = ' ' := (List.cons.inj heq).1
      exact absurd (ha ▸ List.mem_cons_self a t) h
    · rename_i x c rest hguard heq
      obtain ⟨hc, hr⟩ := List.cons.inj heq
      rw [← hc, ← hr]
      exact congrArg (a :: ·) (ih (fun hm => h (List.mem_cons_of_mem _ hm)))
    · rename_i x heq
      cases heq

theorem replaceAnd_mem (l : List Char) : ∀ c0 ∈ replaceAnd l, c0 ∈ l ∨ c0 = ' ' := by
  rw [replaceAnd.eq_def]
  split
  · rename_i x rest
    intro c0 hc0
    rcases List.mem_cons.mp hc0 with h1 | h1
    · right; exact h1
    · rcases replaceAnd_mem rest c0 h1 with h2 | h2
      · left
        simp only [List.mem_cons]
        tauto
      · right; exact h2
  · rename_i x c rest hguard
    intro c0 hc0
    rcases List.mem_cons.mp hc0 with h1 | h1
    · left; rw [h1]; exact List.mem_cons_self _ _
    · rcases replaceAnd_mem rest c0 h1 with h2 | h2
      · left; exact List.mem_cons_of_mem _ h2
      · right; exact h2
  · intro c0 hc0; cases hc0
termination_by l.length
decreasing_by
  · rename_i heq2
    subst heq2
    simp [List.length_cons]
    omega
  · rename_i heq2
    subst heq2
    simp [List.length_cons]

theorem foldl_pick_mem :
    ∀ (l : List (List Char)) (acc : Option (List Char)) (s : List Char),
      l.foldl (fun acc s =>
        match acc with
        | Option.none => some s
        | some t => if s.length > t.length then some s else some t) acc = some s →
      s ∈ l ∨ acc = some s := by
  intro l
  induction l with
  | nil => intro acc s h; right; exact h
  | cons a t ih =>
    intro acc s h
    rw [List.foldl_cons] at h
    rcases ih _ s h with h1 | h1
    · left; exact List.mem_cons_of_mem _ h1
    · cases acc with
      | none =>
        left
        simp only at h1
        rw [Option.some.inj h1.symm]
        exact List.mem_cons_self _ _
      | some t0 =>
        simp only at h1
        split at h1
        · left
          rw [Option.some.inj h1.symm]
          exact List.mem_cons_self _ _
        · right; exact h1

theorem legalSuffixMatch_some {forms : List String} {x s : List Char}
    (h : legalSuffixMatch forms x = some s) :
    s <:+ x ∧ ∃ f, f ∈ forms ∧ s = ' ' :: f.toList := by
  unfold legalSuffixMatch at h
  rcases foldl_pick_mem _ _ _ h with hmem | hacc
  · rw [List.mem_filterMap] at hmem
    obtain ⟨f, hf, hsome⟩ := hmem
    dsimp only at hsome
    split at hsome
    · rename_i hsfx
      rw [List.isSuffixOf_iff_suffix] at hsfx
      rw [← Option.some.inj hsome]
      exact ⟨hsfx, f, hf, rfl⟩
    · cases hsome
  · cases hacc

theorem legalSuffixMatch_eq_none {forms : List String} {x : List Char}
    (h : ' ' ∉ x) : legalSuffixMatch forms x = Option.none := by
  unfold legalSuffixMatch
  rw [List.filterMap_eq_nil_iff.mpr]
  · rfl
  · intro f hf
    dsimp only
    rw [if_neg]
    intro hs
    rw [List.isSuffixOf_iff_suffix] at hs
    exact h (hs.subset (List.mem_cons_self _ _))

theorem stripLegalFormsFuel_subset (forms : List String) :
    ∀ (n : Nat) (x : List Char), stripLegalFormsFuel forms n x ⊆ x := by
  intro n
  induction n with
  | zero => intro x; exact fun c hc => hc
  | succ n ih =>
    intro x
    rw [stripLegalFormsFuel]
    cases hm : legalSuffixMatch forms x with
    | none => exact fun c hc => hc
    | some sfx =>
      intro c hc
      have h1 := ih (trimChars (x.take (x.length - sfx.length))) hc
      exact List.take_subset _ _ (trimChars_subset _ h1)

/-- The iterated legal-form strip reaches a fixed point: with fuel exceeding
the string length, no legal-form suffix survives. -/
theorem stripLegalFormsFuel_fix (forms : List String) :
    ∀ (n : Nat) (x : List Char), x.length < n →
      hasLegalSuffix forms (stripLegalFormsFuel forms n x) = false := by
  intro n
  induction n with
  | zero => intro x h; omega
  | succ n ih =>
    intro x h
    rw [stripLegalFormsFuel]
    cases hm : legalSuffixMatch forms x with
    | none =>
      unfold hasLegalSuffix
      rw [hm]
      rfl
    | some sfx =>
      apply ih
      obtain ⟨hsfx, f, hf, hs⟩ := legalSuffixMatch_some hm
      have h1 : sfx.length ≤ x.length := hsfx.length_le
      have h2 : 1 ≤ sfx.length := by rw [hs]; simp
      calc (trimChars (x.take (x.length - sfx.length))).length
          ≤ (x.take (x.length - sfx.length)).length := trimChars_length_le _
        _ = x.length - sfx.length := by rw [List.length_take]; omega
        _ < n := by omega

theorem stripLegalForms_eq_self {forms : List String} {x : List Char}
    (h : ' ' ∉ x) : stripLegalForms forms x = x := by
  unfold stripLegalForms
  rw [stripLegalFormsFuel, legalSuffixMatch_eq_none h]

theorem stripLeadingArticle_subset (g : Geography) (x : List Char) :
    stripLeadingArticle g x ⊆ x := by
  intro c hc
  unfold stripLeadingArticle at hc
  split at hc
  · exact List.drop_subset _ _ hc
  · cases g with
    | us => exact hc
    | int =>
      dsimp only at hc
      by_cases hp : ("pt ".toList.isPrefixOf x) = true
      · rw [if_pos hp] at hc; exact List.drop_subset _ _ hc
      · rw [if_neg hp] at hc; exact hc

theorem stripLeadingArticle_eq_self {g : Geography} {x : List Char}
    (h : ' ' ∉ x) : stripLeadingArticle g x = x := by
  have hthe : ¬("the ".toList.isPrefixOf x = true) := by
    intro hp
    rw [List.isPrefixOf_iff_prefix] at hp
    exact h (hp.subset (by decide))
  unfold stripLeadingArticle
  rw [if_neg hthe]
  cases g with
  | us => rfl
  | int =>
    rw [if_neg]
    intro hp
    rw [List.isPrefixOf_iff_prefix] at hp
    exact h (hp.subset (by decide))

/-- Claim C9: the legal-form suffix strip is repeated until no suffix
matches (its result admits no further match, for any form list), and in
particular `Acme Holdings Inc` and `Acme` share a canonical key under US
Company mode. -/
theorem claim_C9 :
    (∀ (forms : List String) (x : List Char),
      hasLegalSuffix forms (stripLegalForms forms x) = false)
  ∧ normalize_company_names .us (.s "Acme Holdings Inc") =
      normalize_company_names .us (.s "Acme") :=
  ⟨fun forms x => stripLegalFormsFuel_fix forms (x.length + 1) x (Nat.lt_succ_self _),
   by decide⟩

/-! ### Canonical keys are fixed points of normalization (claim C5) -/

theorem string_toList_mk (l : List Char) : (String.mk l).toList = l := rfl

theorem string_mk_toList (y : String) : String.mk y.toList = y := rfl

theorem stripLegalForms_subset (forms : List String) (x : List Char) :
    stripLegalForms forms x ⊆ x :=
  stripLegalFormsFuel_subset forms (x.length + 1) x

theorem pyLower_eq_self_of_key {c : Char} (h : isKeyChar c = true) : pyLower c = c := by
  unfold pyLower
  rw [if_neg]
  simp only [isKeyChar, Bool.or_eq_true, Bool.and_eq_true, decide_eq_true_eq] at h
  omega

theorem map_pyLower_eq_self {l : List Char} (h : ∀ c ∈ l, pyLower c = c) :
    l.map pyLower = l := by
  calc l.map pyLower = l.map id := List.map_congr_left h
    _ = l := List.map_id l

/-- Every character of a US/Int company canonical key is a lowercase ASCII
letter or digit. -/
theorem companyCore_key_chars (g : Geography) (s : String) :
    ∀ c ∈ (companyCore g s).toList, isKeyChar c = true := by
  intro c hc
  unfold companyCore at hc
  rw [string_toList_mk] at hc
  rw [List.mem_filter] at hc
  obtain ⟨hmem, hne⟩ := hc
  have hne2 : c ≠ ' ' := by simpa using hne
  rcases replaceAnd_mem _ c hmem with h1 | h1
  · have h2 := stripLeadingArticle_subset g _ h1
    have h3 := stripLegalForms_subset _ _ h2
    have h4 := stripHyphenOld_subset _ h3
    have h5 := stripShareClass_subset _ h4
    have h6 := stripTrailArtifact_subset _ h5
    rw [List.mem_filter] at h6
    have h7 := h6.2
    simp only [isCompanyChar, Bool.or_eq_true, beq_iff_eq] at h7
    rcases h7 with h7 | h7
    · exact h7
    · exact absurd h7 hne2
  · exact absurd h1 hne2

/-- A string of key characters is a fixed point of the company pipeline. -/
theorem companyCore_fixed {g : Geography} {y : String}
    (hchars : ∀ c ∈ y.toList, isKeyChar c = true) : companyCore g y = y := by
  have hnospace : ' ' ∉ y.toList := fun hsp => absurd (hchars ' ' hsp) (by decide)
  have hne : ∀ c ∈ y.toList, c ≠ ' ' := fun c hc => isKeyChar_ne_space (hchars c hc)
  unfold companyCore
  rw [map_pyLower_eq_self (fun c hc => pyLower_eq_self_of_key (hchars c hc))]
  rw [trimChars_eq_self (fun c hc => isKeyChar_not_pySpace (hchars c hc))]
  rw [show List.filter isCompanyChar y.toList = y.toList from
    List.filter_eq_self.mpr (fun c hc => by
      simp only [isCompanyChar, Bool.or_eq_true]
      exact Or.inl (hchars c hc))]
  rw [stripTrailArtifact_eq_self hne]
  rw [stripShareClass_eq_self hnospace]
  rw [stripHyphenOld_eq_self (fun hm => absurd (hchars '-' hm) (by decide))]
  rw [stripLegalForms_eq_self hnospace]
  rw [stripLeadingArticle_eq_self hnospace]
  rw [replaceAnd_eq_self hnospace]
  rw [show List.filter (fun c => c != ' ') y.toList = y.toList from
    List.filter_eq_self.mpr (fun c hc => by simpa using hne c hc)]
  exact string_mk_toList y

/-! ### Title stripping: fuel stability and structural equations -/

theorem stripTitlesFuel_eq (m : Nat) :
    ∀ k, k ≤ m → ∀ l : List Char, l.length ≤ k → stripTitlesFuel k l = stripTitles l := by
  induction m with
  | zero =>
    intro k hk l hl
    have hk0 : k = 0 := by omega
    subst hk0
    have hl0 : l = [] := List.eq_nil_of_length_eq_zero (by omega)
    subst hl0
    rfl
  | succ m ih =>
    intro k hk l hl
    by_cases hkm : k ≤ m
    · exact ih k hkm l hl
    · have hk1 : k = m + 1 := by omega
      subst hk1
      cases l with
      | nil => rfl
      | cons c rest =>
        unfold stripTitles
        simp only [List.length_cons]
        rw [stripTitlesFuel, stripTitlesFuel]
        have hrl : rest.length ≤ m := by
          simp only [List.length_cons] at hl
          omega
        by_cases hc : c = ' '
        · rw [if_pos hc, if_pos hc]
          cases hf : findTitle rest with
          | none =>
            simp only [hf]
            rw [ih m (Nat.le_refl m) rest hrl,
              ih rest.length hrl rest (Nat.le_refl _)]
          | some t =>
            simp only [hf]
            have hd : (rest.drop t.length).length ≤ rest.length := by
              rw [List.length_drop]
              omega
            rw [ih m (Nat.le_refl m) (rest.drop t.length) (Nat.le_trans hd hrl),
              ih rest.length hrl (rest.drop t.length) hd]
        · rw [if_neg hc, if_neg hc]
          rw [ih m (Nat.le_refl m) rest hrl,
            ih rest.length hrl rest (Nat.le_refl _)]

theorem stripTitles_cons_space (rest : List Char) :
    stripTitles (' ' :: rest) =
      match findTitle rest with
      | some t => stripTitles (rest.drop t.length)
      | Option.none => ' ' :: stripTitles rest := by
  unfold stripTitles
  simp only [List.length_cons]
  rw [stripTitlesFuel, if_pos rfl]
  cases hf : findTitle rest with
  | none => simp only [hf]
  | some t =>
    simp only [hf]
    exact stripTitlesFuel_eq rest.length rest.length (Nat.le_refl _) _
      (by rw [List.length_drop]; omega)

theorem stripTitles_cons {c : Char} (rest : List Char) (hc : c ≠ ' ') :
    stripTitles (c :: rest) = c :: stripTitles rest := by
  unfold stripTitles
  simp only [List.length_cons]
  rw [stripTitlesFuel, if_neg hc]

theorem stripTitles_append {u l : List Char} (hu : ∀ c ∈ u, c ≠ ' ') :
    stripTitles (u ++ l) = u ++ stripTitles l := by
  induction u with
  | nil => rfl
  | cons c u' ih =>
    rw [List.cons_append, stripTitles_cons _ (hu c (List.mem_cons_self _ _)),
      ih (fun d hd => hu d (List.mem_cons_of_mem _ hd)), List.cons_append]

theorem stripTitles_eq_self {l : List Char} (h : ∀ c ∈ l, c ≠ ' ') :
    stripTitles l = l := by
  have h2 := stripTitles_append (u := l) (l := []) h
  rw [List.append_nil] at h2
  rw [h2]
  rw [show stripTitles [] = [] from rfl, List.append_nil]

theorem stripTitlesFuel_subset : ∀ (n : Nat) (l : List Char), stripTitlesFuel n l ⊆ l := by
  intro n
  induction n with
  | zero => intro l; exact fun c hc => hc
  | succ n ih =>
    intro l
    cases l with
    | nil => intro c hc; cases hc
    | cons a rest =>
      rw [stripTitlesFuel]
      by_cases ha : a = ' '
      · rw [if_pos ha]
        cases hf : findTitle rest with
        | none =>
          simp only [hf]
          intro c hc
          rcases List.mem_cons.mp hc with h1 | h1
          · rw [h1, ha]; exact List.mem_cons_self _ _
          · exact List.mem_cons_of_mem _ (ih rest h1)
        | some t =>
          simp only [hf]
          intro c hc
          exact List.mem_cons_of_mem _
            (List.drop_subset _ _ (ih (rest.drop t.length) hc))
      · rw [if_neg ha]
        intro c hc
        rcases List.mem_cons.mp hc with h1 | h1
        · rw [h1]; exact List.mem_cons_self _ _
        · exact List.mem_cons_of_mem _ (ih rest h1)

theorem stripTitles_subset (l : List Char) : stripTitles l ⊆ l :=
  stripTitlesFuel_subset l.length l

theorem ne_space_of_not_pySpace {c : Char} (h : isPySpace c = false) : c ≠ ' ' := by
  intro he
  subst he
  exact absurd h (by decide)

theorem insertTok_mem (a : List Char) :
    ∀ (l : List (List Char)) (t : List Char), t ∈ insertTok a l → t = a ∨ t ∈ l := by
  intro l
  induction l with
  | nil =>
    intro t ht
    rcases List.mem_cons.mp ht with h1 | h1
    · left; exact h1
    · cases h1
  | cons b bs ih =>
    intro t ht
    unfold insertTok at ht
    split at ht
    · rcases List.mem_cons.mp ht with h1 | h1
      · left; exact h1
      · right; exact h1
    · rcases List.mem_cons.mp ht with h1 | h1
      · right; rw [h1]; exact List.mem_cons_self _ _
      · rcases ih t h1 with h2 | h2
        · left; exact h2
        · right; exact List.mem_cons_of_mem _ h2

theorem sortToks_mem :
    ∀ (l : List (List Char)) (t : List Char), t ∈ sortToks l → t ∈ l := by
  intro l
  induction l with
  | nil => intro t ht; cases ht
  | cons a as ih =>
    intro t ht
    unfold sortToks at ht
    rcases insertTok_mem a _ t ht with h1 | h1
    · rw [h1]; exact List.mem_cons_self _ _
    · exact List.mem_cons_of_mem _ (ih t h1)

theorem splitWsAux_chars :
    ∀ (l cur : List Char), (∀ c ∈ cur, isPySpace c = false) →
      ∀ t ∈ splitWsAux l cur, ∀ c ∈ t, isPySpace c = false ∧ (c ∈ l ∨ c ∈ cur) := by
  intro l
  induction l with
  | nil =>
    intro cur hcur t ht c hc
    unfold splitWsAux at ht
    split at ht
    · cases ht
    · rcases List.mem_cons.mp ht with h1 | h1
      · rw [h1] at hc
        rw [List.mem_reverse] at hc
        exact ⟨hcur c hc, Or.inr hc⟩
      · cases h1
  | cons a rest ih =>
    intro cur hcur t ht c hc
    unfold splitWsAux at ht
    split at ht
    · split at ht
      · rcases (ih [] (by intro d hd; cases hd) t ht c hc).2 with h2 | h2
        · exact ⟨(ih [] (by intro d hd; cases hd) t ht c hc).1,
            Or.inl (List.mem_cons_of_mem _ h2)⟩
        · cases h2
      · rcases List.mem_cons.mp ht with h1 | h1
        · rw [h1] at hc
          rw [List.mem_reverse] at hc
          exact ⟨hcur c hc, Or.inr hc⟩
        · rcases (ih [] (by intro d hd; cases hd) t h1 c hc).2 with h2 | h2
          · exact ⟨(ih [] (by intro d hd; cases hd) t h1 c hc).1,
              Or.inl (List.mem_cons_of_mem _ h2)⟩
          · cases h2
    · rename_i ha
      have ha2 : isPySpace a = false := by
        cases hb : isPySpace a
        · rfl
        · exact absurd hb ha
      have hcur2 : ∀ d ∈ a :: cur, isPySpace d = false := by
        intro d hd
        rcases List.mem_cons.mp hd with h1 | h1
        · rw [h1]; exact ha2
        · exact hcur d h1
      rcases (ih (a :: cur) hcur2 t ht c hc).2 with h2 | h2
      · exact ⟨(ih (a :: cur) hcur2 t ht c hc).1, Or.inl (List.mem_cons_of_mem _ h2)⟩
      · rcases List.mem_cons.mp h2 with h3 | h3
        · exact ⟨(ih (a :: cur) hcur2 t ht c hc).1, Or.inl (h3 ▸ List.mem_cons_self _ _)⟩
        · exact ⟨(ih (a :: cur) hcur2 t ht c hc).1, Or.inr h3⟩

theorem splitWs_chars (l : List Char) :
    ∀ t ∈ splitWs l, ∀ c ∈ t, isPySpace c = false ∧ c ∈ l := by
  intro t ht c hc
  have h := splitWsAux_chars l [] (by intro d hd; cases hd) t ht c hc
  rcases h.2 with h2 | h2
  · exact ⟨h.1, h2⟩
  · cases h2

theorem splitWsAux_nospace :
    ∀ (l cur : List Char), (∀ c ∈ l, isPySpace c = false) →
      splitWsAux l cur = if cur = [] ∧ l = [] then [] else [cur.reverse ++ l] := by
  intro l
  induction l with
  | nil =>
    intro cur h
    by_cases hc : cur = []
    · simp [splitWsAux, hc]
    · simp [splitWsAux, hc]
  | cons a rest ih =>
    intro cur h
    have ha : isPySpace a = false := h a (List.mem_cons_self _ _)
    rw [splitWsAux]
    rw [if_neg (by rw [ha]; exact Bool.false_ne_true)]
    rw [ih (a :: cur) (fun c hc => h c (List.mem_cons_of_mem _ hc))]
    rw [if_neg (by intro hx; exact List.cons_ne_nil a cur hx.1)]
    rw [if_neg (by intro hx; exact List.cons_ne_nil a rest hx.2)]
    rw [List.reverse_cons, List.append_assoc]
    rfl

theorem splitWs_single {l : List Char} (h : ∀ c ∈ l, isPySpace c = false)
    (hne : l ≠ []) : splitWs l = [l] := by
  unfold splitWs
  rw [splitWsAux_nospace l [] h]
  rw [if_neg (by intro hx; exact hne hx.2)]
  rw [List.reverse_nil, List.nil_append]

/-- Every character of a person canonical key is a person-class character,
not whitespace, and fixed under lowercasing. -/
theorem personCore_chars (s : String) :
    ∀ c ∈ (personCore s).toList,
      isPersonChar c = true ∧ isPySpace c = false ∧ pyLower c = c := by
  intro c hc
  unfold personCore at hc
  rw [string_toList_mk] at hc
  rw [List.mem_flatten] at hc
  obtain ⟨tok, htok, hc⟩ := hc
  have htok2 := sortToks_mem _ tok htok
  have hchars := splitWs_chars _ tok htok2 c hc
  obtain ⟨hsp, hmem⟩ := hchars
  have hmem2 := trimChars_subset _ hmem
  rw [List.mem_map] at hmem2
  obtain ⟨c0, hc0, hlow⟩ := hmem2
  have hc0p : isPersonChar c0 = true := by
    have h2 := stripTitles_subset _ hc0
    rw [List.mem_filter] at h2
    exact h2.2
  refine ⟨hlow ▸ isPersonChar_pyLower c0 hc0p, hsp, hlow ▸ pyLower_pyLower c0⟩

/-- A string of lowercase, whitespace-free person characters is a fixed
point of the person pipeline. -/
theorem personCore_fixed {y : String}
    (hchars : ∀ c ∈ y.toList,
      isPersonChar c = true ∧ isPySpace c = false ∧ pyLower c = c) :
    personCore y = y := by
  unfold personCore
  rw [show y.toList.filter isPersonChar = y.toList from
    List.filter_eq_self.mpr (fun c hc => (hchars c hc).1)]
  rw [stripTitles_eq_self (fun c hc => ne_space_of_not_pySpace (hchars c hc).2.1)]
  rw [map_pyLower_eq_self (fun c hc => (hchars c hc).2.2)]
  rw [trimChars_eq_self (fun c hc => (hchars c hc).2.1)]
  suffices h : (sortToks (splitWs y.toList)).flatten = y.toList by
    rw [h]
    exact string_mk_toList y
  cases hYl : y.toList with
  | nil => rfl
  | cons c0 rest =>
    rw [splitWs_single (fun c hc => (hchars c (hYl ▸ hc)).2.1) (List.cons_ne_nil _ _)]
    simp [sortToks, insertTok]

/-- Claim C5: normalization is idempotent — re-normalizing an
already-normalized canonical key yields the same key, for both company
geographies and for person names (where idempotence is stated through `bind`
since the person normalizer is fallible). -/
theorem claim_C5 (x : String) (g : Geography) :
    normalize_company_names g (.s (normalize_company_names g (.s x))) =
      normalize_company_names g (.s x)
  ∧ (normalize_person_names (.s x)).bind (fun y => normalize_person_names (.s y)) =
      normalize_person_names (.s x) := by
  constructor
  · exact companyCore_fixed (companyCore_key_chars g x)
  · show Except.ok (personCore (personCore x)) = Except.ok (personCore x)
    exact congrArg Except.ok (personCore_fixed (personCore_chars x))

/-! ### Title matching at whole tokens (claim C10) -/

theorem titles_spaceless : ∀ t ∈ titleTokens, ' ' ∉ t.toList := by decide

/-- For every title, the first title in list order that is a prefix of it is
the title itself (checked over the concrete alternation of line 48). -/
theorem titles_first_prefix :
    ∀ t ∈ titleTokens,
      (titleTokens.map String.toList).find? (fun tt => tt.isPrefixOf t.toList) =
        some t.toList := by decide

theorem find?_congr {α : Type} (l : List α) (p q : α → Bool)
    (h : ∀ a ∈ l, p a = q a) : l.find? p = l.find? q := by
  induction l with
  | nil => rfl
  | cons a t ih =>
    rw [List.find?_cons, List.find?_cons, h a (List.mem_cons_self _ _)]
    cases q a
    · exact ih (fun b hb => h b (List.mem_cons_of_mem _ hb))
    · rfl

theorem isPrefixOf_append_boundary {tt t v : List Char} (htt : ' ' ∉ tt)
    (hv : v = [] ∨ ∃ v2, v = ' ' :: v2) :
    tt.isPrefixOf (t ++ v) = tt.isPrefixOf t := by
  cases hb : tt.isPrefixOf t
  · cases hb2 : tt.isPrefixOf (t ++ v)
    · rfl
    · exfalso
      rw [List.isPrefixOf_iff_prefix] at hb2
      have hbneg : ¬ tt <+: t := by
        rw [← List.isPrefixOf_iff_prefix]
        simp [hb]
      have h1 : tt = (t ++ v).take tt.length := List.prefix_iff_eq_take.mp hb2
      rw [List.take_append_eq_append_take] at h1
      by_cases hlen : tt.length ≤ t.length
      · apply hbneg
        rw [List.prefix_iff_eq_take]
        rw [Nat.sub_eq_zero_of_le hlen, List.take_zero, List.append_nil] at h1
        exact h1
      · rcases hv with hv | ⟨v2, hv⟩
        · subst hv
          rw [List.take_nil, List.append_nil] at h1
          have h2 : tt.length = min tt.length t.length := by
            conv_lhs => rw [h1]
            rw [List.length_take]
          omega
        · subst hv
          apply htt
          rw [h1]
          apply List.mem_append_right
          rw [List.take_cons (by omega)]
          exact List.mem_cons_self _ _
  · cases hb2 : tt.isPrefixOf (t ++ v)
    · exfalso
      rw [List.isPrefixOf_iff_prefix] at hb
      have : tt <+: t ++ v := hb.trans (List.prefix_append t v)
      rw [← List.isPrefixOf_iff_prefix] at this
      rw [this] at hb2
      cases hb2
    · rfl

/-- When a title occurs followed by a space or the end of the string, the
alternation of line 48 matches exactly that title at that position. -/
theorem findTitle_whole (t : String) (v : List Char) (ht : t ∈ titleTokens)
    (hv : v = [] ∨ ∃ v2, v = ' ' :: v2) :
    findTitle (t.toList ++ v) = some t.toList := by
  unfold findTitle
  rw [find?_congr _ _ (fun tt => tt.isPrefixOf t.toList) (fun tt htt => by
    rw [List.mem_map] at htt
    obtain ⟨s0, hs0, hteq⟩ := htt
    exact isPrefixOf_append_boundary (hteq ▸ titles_spaceless s0 hs0) hv)]
  exact titles_first_prefix t ht

/-- Counterexample to claim C10: the title regex has no trailing token
boundary, so in `Abe MDole` the substring ` MD` — not a whole token — is
removed, and the source strip diverges from whole-token removal at this
input. -/
theorem claim_C10_counterexample :
    stripTitles (String.toList "Abe MDole") = String.toList "Abeole"
  ∧ stripTitlesWholeTokens (String.toList "Abe MDole") = String.toList "Abe MDole"
  ∧ String.toList "Abeole" ≠ String.toList "Abe MDole"
  ∧ normalize_person_names (.s "Abe MDole") = Except.ok "abeole" :=
  ⟨by decide, by decide, by decide, by decide⟩

/-- Claim C10 as amended: the title strip removes each occurrence of a space
immediately followed by a title token regardless of what follows it; in
particular a whole-token occurrence after a space is removed together with
its leading space, a title at the start of the string (with no preceding
space) is not removed, and a title beginning a longer word is still stripped
out of it (witnessed by `Abe MDole` becoming `Abeole`). -/
theorem claim_C10 (t : String) (u v : List Char)
    (ht : t ∈ titleTokens) (hu : ∀ c ∈ u, c ≠ ' ')
    (hv : v = [] ∨ ∃ v2, v = ' ' :: v2) :
    stripTitles (u ++ ' ' :: (t.toList ++ v)) = u ++ stripTitles v
  ∧ stripTitles (t.toList ++ v) = t.toList ++ stripTitles v
  ∧ stripTitles (String.toList "Abe MDole") = String.toList "Abeole" := by
  refine ⟨?_, ?_, by decide⟩
  · rw [stripTitles_append hu, stripTitles_cons_space]
    simp only [findTitle_whole t v ht hv]
    rw [List.drop_left]
  · exact stripTitles_append (fun c hc he =>
      titles_spaceless t ht (he ▸ hc))

/-- Witness for claim C10: token `MBA` after `John` is removed as a whole
token, and kept when it leads the string. -/
theorem claim_C10_witness :
    ("MBA" ∈ titleTokens ∧ (∀ c ∈ String.toList "John", c ≠ ' ') ∧
      (([] : List Char) = [] ∨ ∃ v2, ([] : List Char) = ' ' :: v2))
  ∧ (stripTitles (String.toList "John" ++ ' ' :: (String.toList "MBA" ++ [])) =
        String.toList "John" ++ stripTitles []
      ∧ stripTitles (String.toList "MBA" ++ []) = String.toList "MBA" ++ stripTitles []
      ∧ stripTitles (String.toList "Abe MDole") = String.toList "Abeole") :=
  ⟨⟨by decide, by decide, Or.inl rfl⟩,
   claim_C10 "MBA" (String.toList "John") [] (by decide) (by decide) (Or.inl rfl)⟩
